import Mathlib

/-!
Shallow embedding of the CSR sparse-graph implementation
(`GrafoDisperso.h` / `GrafoBase.h`) and verification of its
specification claims.

The C++ class stores a directed graph in compressed sparse row form:
three arrays `values`, `column_indices`, `row_ptr`, plus the counters
`numNodos` and `numAristas`.  Loading parses an edge list (pairs of
non-negative integers), sets `numNodos` to the maximum id plus one,
builds per-source adjacency lists in file order and flattens them into
the CSR arrays.  Queries (`obtenerGradoSalida`, `obtenerGradoEntrada`,
`getVecinos`, `obtenerNodoMayorGrado`) and traversals (`BFS`, `DFS`)
read the arrays directly.

Machine `int` values are modelled as `Int` (for ids that can be
negative, such as query arguments and the `-1` sentinels) and `Nat`
(for sizes and the ids stored in the structure, which are non-negative
for well-formed inputs).  Dynamic `int*` arrays become `List Nat`;
the `bool*` visited arrays become the list of currently marked nodes;
the `distancias` array becomes a function `Nat → Int` updated
pointwise, mirroring the assignments in the source.  The BFS while
loop and the recursive DFS consume explicit fuel; the source arrays
`cola` and `resultado` hold exactly `numNodos` slots, and the loops
perform at most `numNodos` iterations / nested calls, so fuel
`numNodos` reproduces the source behaviour (proved below as part of
the correctness lemmas: the fuel-exhausted branch is never taken from
the initial states used by `BFS` and `DFS`).
-/

/-- The CSR graph state after a load: the three arrays and the two
counters of `GrafoDisperso`. -/
structure Grafo where
  numNodos : Nat
  numAristas : Nat
  values : List Nat
  column_indices : List Nat
  row_ptr : List Nat

namespace Grafo

/-! ### Loading (`cargarDatos` first pass and adjacency building) -/

/-- First pass of `cargarDatos`: `nodoMaximo` starts at `-1` and is
raised to every origin and destination read. -/
def nodoMaximo (aristas : List (Nat × Nat)) : Int :=
  aristas.foldl (fun m p => max (max m (p.1 : Int)) (p.2 : Int)) (-1)

/-- Number of nodes detected by the first pass: `nodoMaximo + 1`. -/
def numNodosDe (aristas : List (Nat × Nat)) : Nat :=
  (nodoMaximo aristas + 1).toNat

/-- Temporary adjacency list built by the second pass of `cargarDatos`:
`listaAdyacencia[i]` receives, in file order, the destination of every
edge whose origin is `i`. -/
def vecinosDe (aristas : List (Nat × Nat)) (i : Nat) : List Nat :=
  (aristas.filter (fun p => p.1 == i)).map Prod.snd

/-- The per-node counter `contadores[i]` after the second pass. -/
def gradoDe (aristas : List (Nat × Nat)) (i : Nat) : Nat :=
  (vecinosDe aristas i).length

/-- Partial sums of the per-node counters; `construirCSR` computes
`row_ptr[i+1] = row_ptr[i] + contadores[i]` starting from
`row_ptr[0] = 0`, so `row_ptr[i]` is the sum of the first `i`
counters. -/
def prefSum (aristas : List (Nat × Nat)) (i : Nat) : Nat :=
  ((List.range i).map (gradoDe aristas)).sum

/-- The `row_ptr` array built by `construirCSR`. -/
def row_ptrDe (aristas : List (Nat × Nat)) (n : Nat) : List Nat :=
  (List.range (n + 1)).map (prefSum aristas)

/-- The `column_indices` array built by `construirCSR`: the adjacency
lists concatenated in increasing node order. -/
def column_indicesDe (aristas : List (Nat × Nat)) (n : Nat) : List Nat :=
  ((List.range n).map (vecinosDe aristas)).flatten

/-- The graph produced by `cargarDatos` from the parsed edge list
(`construirCSR` included).  `values` is filled with the constant 1. -/
def cargarDatos (aristas : List (Nat × Nat)) : Grafo :=
  let n := numNodosDe aristas
  { numNodos := n
    numAristas := aristas.length
    values := List.replicate aristas.length 1
    column_indices := column_indicesDe aristas n
    row_ptr := row_ptrDe aristas n }

/-- Full `cargarDatos` contract including the file-open check: a file
that cannot be opened is `none` and makes the load fail
(`return false`); an opened file is modelled by the list of integer
pairs its stream extraction yields, and the load always succeeds on
it. -/
def cargarDatosArchivo (archivo : Option (List (Nat × Nat))) : Option Grafo :=
  match archivo with
  | none => none
  | some aristas => some (cargarDatos aristas)

/-! ### Queries -/

/-- The neighbour slice of the CSR structure for a (valid) node: the
entries `column_indices[row_ptr[nodo] .. row_ptr[nodo+1])` read in
order, exactly as the copy loops of `getVecinos`, `BFS` and `DFS`
do. -/
def vecinosCSR (g : Grafo) (nodo : Nat) : List Nat :=
  let inicio := g.row_ptr.getD nodo 0
  let fin := g.row_ptr.getD (nodo + 1) 0
  (List.range (fin - inicio)).map (fun i => g.column_indices.getD (inicio + i) 0)

/-- `obtenerGradoSalida`: 0 out of range, otherwise the difference of
consecutive row offsets. -/
def obtenerGradoSalida (g : Grafo) (nodo : Int) : Nat :=
  if nodo < 0 ∨ (g.numNodos : Int) ≤ nodo then 0
  else g.row_ptr.getD (nodo.toNat + 1) 0 - g.row_ptr.getD nodo.toNat 0

/-- `obtenerGradoEntrada`: 0 out of range, otherwise the number of
indices `i < numAristas` with `column_indices[i] == nodo`. -/
def obtenerGradoEntrada (g : Grafo) (nodo : Int) : Nat :=
  if nodo < 0 ∨ (g.numNodos : Int) ≤ nodo then 0
  else (List.range g.numAristas).countP
    (fun i => (g.column_indices.getD i 0 : Int) == nodo)

/-- `getVecinos`: the empty sequence out of range, otherwise a fresh
copy of the CSR slice of the node. -/
def getVecinos (g : Grafo) (nodo : Int) : List Nat :=
  if nodo < 0 ∨ (g.numNodos : Int) ≤ nodo then []
  else vecinosCSR g nodo.toNat

/-- `obtenerNodoMayorGrado`: scan all nodes in increasing order,
keeping `(nodoMaximo, gradoMaximo)` initialised to `(-1, 0)` and
replacing it only on a strictly greater out-degree. -/
def obtenerNodoMayorGrado (g : Grafo) : Int × Nat :=
  (List.range g.numNodos).foldl
    (fun (acc : Int × Nat) (i : Nat) =>
      if acc.2 < obtenerGradoSalida g (i : Int) then ((i : Int), obtenerGradoSalida g (i : Int))
      else acc)
    (-1, 0)

/-! ### BFS -/

/-- BFS state: `(marcados, distancias, cola, resultado)`.  `marcados`
models the `bool` array as the list of marked nodes, `distancias` the
`int` array (initialised to `-1`), `cola` the pending segment
`cola[frente..final)` of the queue array, `resultado` the output
array. -/
abbrev BFSEstado := List Nat × (Nat → Int) × List Nat × List Nat

/-- Body of the neighbour loop of `BFS`: an unmarked neighbour is
marked, given distance `distanciaActual + 1`, enqueued and appended to
the result. -/
def bfsVisita (distanciaActual : Int) (acc : BFSEstado) (vecino : Nat) : BFSEstado :=
  if vecino ∈ acc.1 then acc
  else (vecino :: acc.1,
        fun j => if j = vecino then distanciaActual + 1 else acc.2.1 j,
        acc.2.2.1 ++ [vecino],
        acc.2.2.2 ++ [vecino])

/-- The `while (frente < final)` loop of `BFS`.  Each iteration
dequeues one node; if the depth limit applies (`profundidadMax != -1`
and the node's distance has reached it) its neighbours are skipped,
otherwise the neighbour loop runs.  Fuel bounds the number of
iterations (at most `numNodos` in the source, the capacity of the
queue array). -/
def bfsLoop (g : Grafo) (profundidadMax : Int) :
    Nat → List Nat → (Nat → Int) → List Nat → List Nat → List Nat
  | 0, _, _, _, resultado => resultado
  | fuel + 1, marcados, dist, cola, resultado =>
    match cola with
    | [] => resultado
    | nodoActual :: resto =>
      let distanciaActual := dist nodoActual
      if profundidadMax ≠ -1 ∧ profundidadMax ≤ distanciaActual then
        bfsLoop g profundidadMax fuel marcados dist resto resultado
      else
        let acc := (vecinosCSR g nodoActual).foldl (bfsVisita distanciaActual)
          (marcados, dist, resto, resultado)
        bfsLoop g profundidadMax fuel acc.1 acc.2.1 acc.2.2.1 acc.2.2.2

/-- `BFS`: an invalid start yields the empty result; otherwise the
start node is marked, given distance 0, enqueued and recorded, and the
loop runs. -/
def BFS (g : Grafo) (nodoInicio : Int) (profundidadMax : Int) : List Nat :=
  if nodoInicio < 0 ∨ (g.numNodos : Int) ≤ nodoInicio then []
  else
    let s := nodoInicio.toNat
    bfsLoop g profundidadMax g.numNodos [s] (fun j => if j = s then 0 else -1) [s] [s]

/-! ### DFS -/

/-- `DFSRecursivo`: mark the current node, append it to the result,
then recurse into each still-unmarked neighbour in CSR order.  The
state is `(marcados, resultado)`.  Fuel bounds the nesting depth (at
most `numNodos`, since every nested call marks a new node). -/
def DFSRecursivo (g : Grafo) :
    Nat → Nat → List Nat × List Nat → List Nat × List Nat
  | 0, _, estado => estado
  | fuel + 1, nodoActual, estado =>
    (vecinosCSR g nodoActual).foldl
      (fun acc vecino =>
        if vecino ∈ acc.1 then acc else DFSRecursivo g fuel vecino acc)
      (nodoActual :: estado.1, estado.2 ++ [nodoActual])

/-- `DFS`: an invalid start yields the empty result; otherwise run the
recursion from the start node with everything unmarked. -/
def DFS (g : Grafo) (nodoInicio : Int) : List Nat :=
  if nodoInicio < 0 ∨ (g.numNodos : Int) ≤ nodoInicio then []
  else (DFSRecursivo g g.numNodos nodoInicio.toNat ([], [])).2

/-! ### Specification-side notions: edges, reachability, walks -/

/-- The edge relation of the raw edge list. -/
def EdgeRel (aristas : List (Nat × Nat)) (u v : Nat) : Prop :=
  (u, v) ∈ aristas

/-- Reachability along directed edges of the edge list. -/
def Reachable (aristas : List (Nat × Nat)) (u v : Nat) : Prop :=
  Relation.ReflTransGen (EdgeRel aristas) u v

/-- Walks of a given length in an arbitrary step relation; used to
state depth-bounded reachability (the BFS distance of `v` from `u` is
at most `d` exactly when some walk of length at most `d` joins
them). -/
inductive WalkN (R : Nat → Nat → Prop) (u : Nat) : Nat → Nat → Prop
  | refl : WalkN R u u 0
  | tail {v w : Nat} {k : Nat} : WalkN R u v k → R v w → WalkN R u w (k + 1)

/-- The adjacency relation actually read by the traversals: `v` is a
neighbour of `u` in the CSR arrays. -/
def AdyCSR (g : Grafo) (u v : Nat) : Prop :=
  v ∈ vecinosCSR g u

/-- Invariant of the BFS while loop, tying the state
`(marcados, dist, cola, resultado)` to the graph, the start node, the
depth bound and the remaining fuel.  `resultado` lists every node ever
enqueued; `cola` is the still-pending suffix. -/
structure BFSInv (g : Grafo) (s : Nat) (profundidadMax : Int) (fuel : Nat)
    (m : List Nat) (di : Nat → Int) (q : List Nat) (r : List Nat) : Prop where
  mem_iff : ∀ x : Nat, x ∈ m ↔ x ∈ r
  nodup_r : r.Nodup
  lt_r : ∀ x ∈ r, x < g.numNodos
  sub_q : ∀ x ∈ q, x ∈ r
  nodup_q : q.Nodup
  start_mem : s ∈ r
  start_dist : di s = 0
  dist_nonneg : ∀ x ∈ r, 0 ≤ di x
  dist_walk : ∀ x ∈ r, WalkN (AdyCSR g) s x (di x).toNat
  dist_le : profundidadMax ≠ -1 → ∀ x ∈ r, di x ≤ max profundidadMax 0
  closure : ∀ x ∈ r, x ∉ q →
    (profundidadMax ≠ -1 ∧ profundidadMax ≤ di x) ∨
    (∀ w ∈ vecinosCSR g x, w ∈ r ∧ di w ≤ di x + 1)
  sorted_q : q.Pairwise (fun a b => di a ≤ di b)
  bdd : ∀ x ∈ r, ∀ y : Nat, q.head? = some y → di x ≤ di y + 1
  fuel_ge : q.length + g.numNodos ≤ fuel + r.length

/-- What the BFS loop guarantees about its final result `res`,
relative to the already-recorded prefix `r0`, together with the final
distance assignment `df`. -/
structure BFSPost (g : Grafo) (s : Nat) (profundidadMax : Int)
    (r0 : List Nat) (res : List Nat) (df : Nat → Int) : Prop where
  sub : ∀ x ∈ r0, x ∈ res
  nodup : res.Nodup
  lt : ∀ x ∈ res, x < g.numNodos
  start_mem : s ∈ res
  start_dist : df s = 0
  nonneg : ∀ x ∈ res, 0 ≤ df x
  walk : ∀ x ∈ res, WalkN (AdyCSR g) s x (df x).toNat
  le_max : profundidadMax ≠ -1 → ∀ x ∈ res, df x ≤ max profundidadMax 0
  closure : ∀ x ∈ res, (profundidadMax ≠ -1 ∧ profundidadMax ≤ df x) ∨
    (∀ w ∈ vecinosCSR g x, w ∈ res ∧ df w ≤ df x + 1)

/-- Invariant of the neighbour loop inside one BFS iteration,
relative to the state `(di, resto, r)` at the start of the iteration
and the distance `d` of the dequeued node.  The freshly marked
neighbours `t` are appended both to the queue and to the result. -/
structure BFSFoldInv (g : Grafo) (d : Int) (V : List Nat) (di : Nat → Int)
    (resto r : List Nat) (acc : BFSEstado) : Prop where
  mem_iff : ∀ x : Nat, x ∈ acc.1 ↔ x ∈ acc.2.2.2
  news : ∃ t, acc.2.2.2 = r ++ t ∧ acc.2.2.1 = resto ++ t ∧
    ∀ w ∈ t, acc.2.1 w = d + 1 ∧ w ∈ V
  agree : ∀ x ∈ r, acc.2.1 x = di x
  nodup : acc.2.2.2.Nodup

/-- Invariant of the neighbour loop inside one `DFSRecursivo` call on
`v`, entered with result list `r`; `fuel` is the fuel available to the
nested calls. -/
structure DFSFoldInv (g : Grafo) (v : Nat) (fuel : Nat) (r : List Nat)
    (acc : List Nat × List Nat) : Prop where
  mem_iff : ∀ x : Nat, x ∈ acc.1 ↔ x ∈ acc.2
  ext : ∃ t, acc.2 = (r ++ [v]) ++ t
  nodup : acc.2.Nodup
  lt : ∀ x ∈ acc.2, x < g.numNodos
  reach : ∀ x ∈ acc.2, x ∈ r ∨ Relation.ReflTransGen (AdyCSR g) v x
  closed : ∀ x ∈ acc.2, x ∉ r ++ [v] → ∀ w ∈ vecinosCSR g x, w ∈ acc.2
  fuel_le : g.numNodos ≤ fuel + acc.2.length

/-- What one completed `DFSRecursivo` call guarantees: the result list
`r1` (with marks `m1`) extends the entry list `r`, stays duplicate-free
and in range, contains the visited node, only adds nodes reachable
from it, and every added node has all its neighbours marked. -/
structure DFSPost (g : Grafo) (v : Nat) (r : List Nat)
    (m1 : List Nat) (r1 : List Nat) : Prop where
  mem_iff : ∀ x : Nat, x ∈ m1 ↔ x ∈ r1
  ext : ∃ t, r1 = r ++ t
  nodup : r1.Nodup
  lt : ∀ x ∈ r1, x < g.numNodos
  self_mem : v ∈ r1
  reach : ∀ x ∈ r1, x ∈ r ∨ Relation.ReflTransGen (AdyCSR g) v x
  closed : ∀ x ∈ r1, x ∉ r → ∀ w ∈ vecinosCSR g x, w ∈ r1
  len : r.length < r1.length

end Grafo

namespace Grafo

/-! ### Sanity checks on the concrete scenario of the spec -/

/-- The concrete edge list of the spec scenario. -/
def ejemplo : List (Nat × Nat) := [(0, 1), (0, 2), (1, 2), (2, 0)]

example : (cargarDatos ejemplo).numNodos = 3 := by decide
example : (cargarDatos ejemplo).column_indices = [1, 2, 2, 0] := by decide
example : (cargarDatos ejemplo).row_ptr = [0, 2, 3, 4] := by decide
example : BFS (cargarDatos ejemplo) 0 (-1) = [0, 1, 2] := by decide
example : DFS (cargarDatos ejemplo) 0 = [0, 1, 2] := by decide
example : obtenerNodoMayorGrado (cargarDatos ejemplo) = (0, 2) := by decide
example : BFS (cargarDatos ejemplo) 0 0 = [0] := by decide
example : BFS (cargarDatos ejemplo) 0 (-2) = [0] := by decide
example : BFS (cargarDatos ejemplo) 99 (-1) = [] := by decide

/-! ### Lemmas on the first pass: node counting -/

theorem le_foldl_max (l : List (Nat × Nat)) (m : Int) :
    m ≤ l.foldl (fun a p => max (max a (p.1 : Int)) (p.2 : Int)) m := by
  induction l generalizing m with
  | nil => exact le_refl m
  | cons p l ih =>
    simp only [List.foldl_cons]
    exact le_trans (le_trans (le_max_left _ _) (le_max_left _ _)) (ih _)

theorem mem_le_foldl_max (l : List (Nat × Nat)) (m : Int) {p : Nat × Nat} (hp : p ∈ l) :
    (p.1 : Int) ≤ l.foldl (fun a q => max (max a (q.1 : Int)) (q.2 : Int)) m ∧
      (p.2 : Int) ≤ l.foldl (fun a q => max (max a (q.1 : Int)) (q.2 : Int)) m := by
  induction l generalizing m with
  | nil => cases hp
  | cons q l ih =>
    rcases List.mem_cons.mp hp with h | h
    · subst h
      simp only [List.foldl_cons]
      constructor
      · exact le_trans (le_trans (le_max_right _ _) (le_max_left _ _)) (le_foldl_max _ _)
      · exact le_trans (le_max_right _ _) (le_foldl_max _ _)
    · exact ih _ h

theorem mem_lt_numNodosDe {l : List (Nat × Nat)} {p : Nat × Nat} (hp : p ∈ l) :
    p.1 < numNodosDe l ∧ p.2 < numNodosDe l := by
  obtain ⟨h1, h2⟩ := mem_le_foldl_max l (-1) hp
  unfold numNodosDe
  constructor
  · have : ((p.1 + 1 : Nat) : Int) ≤ nodoMaximo l + 1 := by
      push_cast; exact add_le_add_right h1 1
    have := Int.toNat_le_toNat this
    simpa using Nat.lt_of_lt_of_le (Nat.lt_succ_self _) this
  · have : ((p.2 + 1 : Nat) : Int) ≤ nodoMaximo l + 1 := by
      push_cast; exact add_le_add_right h2 1
    have := Int.toNat_le_toNat this
    simpa using Nat.lt_of_lt_of_le (Nat.lt_succ_self _) this

theorem numNodosDe_nil : numNodosDe [] = 0 := rfl

theorem numNodosDe_pos {l : List (Nat × Nat)} (hl : l ≠ []) : 0 < numNodosDe l := by
  obtain ⟨p, hp⟩ := List.exists_mem_of_ne_nil l hl
  exact Nat.lt_of_le_of_lt (Nat.zero_le _) (mem_lt_numNodosDe hp).1

/-! ### Lemmas on the adjacency lists -/

theorem vecinosDe_cons (p : Nat × Nat) (l : List (Nat × Nat)) (i : Nat) :
    vecinosDe (p :: l) i = (if p.1 = i then [p.2] else []) ++ vecinosDe l i := by
  by_cases h : p.1 = i <;> simp [vecinosDe, List.filter_cons, h]

theorem mem_vecinosDe {l : List (Nat × Nat)} {i w : Nat} :
    w ∈ vecinosDe l i ↔ (i, w) ∈ l := by
  constructor
  · intro hw
    simp only [vecinosDe, List.mem_map, List.mem_filter] at hw
    obtain ⟨⟨a, b⟩, ⟨hab, h1⟩, h2⟩ := hw
    simp only [beq_iff_eq] at h1
    simp only at h2
    subst h1; subst h2; exact hab
  · intro hw
    simp only [vecinosDe, List.mem_map, List.mem_filter]
    exact ⟨(i, w), ⟨hw, by simp⟩, rfl⟩

theorem gradoDe_cons (p : Nat × Nat) (l : List (Nat × Nat)) (i : Nat) :
    gradoDe (p :: l) i = (if p.1 = i then 1 else 0) + gradoDe l i := by
  by_cases h : p.1 = i
  · simp only [gradoDe, vecinosDe_cons, h, if_pos, List.length_append,
      List.length_singleton]
  · simp [gradoDe, vecinosDe_cons, h]

/-! ### Lemmas on the row offsets -/

theorem prefSum_zero (l : List (Nat × Nat)) : prefSum l 0 = 0 := rfl

theorem prefSum_succ (l : List (Nat × Nat)) (i : Nat) :
    prefSum l (i + 1) = prefSum l i + gradoDe l i := by
  simp [prefSum, List.range_succ]

theorem prefSum_mono (l : List (Nat × Nat)) {i j : Nat} (h : i ≤ j) :
    prefSum l i ≤ prefSum l j := by
  induction j, h using Nat.le_induction with
  | base => exact le_refl _
  | succ n hn ih => rw [prefSum_succ]; exact le_trans ih (Nat.le_add_right _ _)

theorem row_ptrDe_getD {l : List (Nat × Nat)} {n i : Nat} (h : i ≤ n) :
    (row_ptrDe l n).getD i 0 = prefSum l i := by
  rw [row_ptrDe, List.getD_eq_getElem?_getD,
    List.getElem?_eq_getElem (by simp; omega)]
  simp

theorem length_row_ptrDe (l : List (Nat × Nat)) (n : Nat) :
    (row_ptrDe l n).length = n + 1 := by
  simp [row_ptrDe]

/-! ### Auxiliary sum lemmas -/

theorem sum_map_add {α : Type} (L : List α) (f g : α → Nat) :
    (L.map (fun x => f x + g x)).sum = (L.map f).sum + (L.map g).sum := by
  induction L with
  | nil => rfl
  | cons x L ih => simp only [List.map_cons, List.sum_cons, ih]; omega

theorem sum_map_indicator (n t : Nat) :
    ((List.range n).map (fun i => if t = i then 1 else 0)).sum
      = if t < n then 1 else 0 := by
  induction n with
  | zero => simp
  | succ n ih =>
    rw [List.range_succ, List.map_append, List.sum_append, ih]
    simp only [List.map_cons, List.map_nil, List.sum_cons, List.sum_nil]
    split_ifs <;> omega

theorem prefSum_eq_length {l : List (Nat × Nat)} {n : Nat}
    (h : ∀ p ∈ l, p.1 < n) : prefSum l n = l.length := by
  induction l with
  | nil =>
    simp only [prefSum, List.length_nil]
    have : ∀ i ∈ List.range n, gradoDe ([] : List (Nat × Nat)) i = 0 := by
      intro i _; rfl
    rw [List.map_congr_left this]
    simp
  | cons p l ih =>
    have hcong : ∀ i ∈ List.range n,
        gradoDe (p :: l) i = (fun i => (if p.1 = i then 1 else 0) + gradoDe l i) i := by
      intro i _; exact gradoDe_cons p l i
    rw [prefSum, List.map_congr_left hcong, sum_map_add, sum_map_indicator,
      if_pos (h p (List.mem_cons_self p l))]
    have := ih (fun q hq => h q (List.mem_cons_of_mem p hq))
    rw [prefSum] at this
    rw [this, List.length_cons]
    omega

/-! ### Lemmas on the column indices -/

theorem length_column_indicesDe (l : List (Nat × Nat)) (n : Nat) :
    (column_indicesDe l n).length = prefSum l n := by
  unfold column_indicesDe prefSum
  rw [List.length_flatten, List.map_map]
  exact congrArg List.sum (List.map_congr_left (fun i _ => rfl))

theorem mem_column_indicesDe {l : List (Nat × Nat)} {n c : Nat}
    (hc : c ∈ column_indicesDe l n) : ∃ i, i < n ∧ c ∈ vecinosDe l i := by
  simp only [column_indicesDe, List.mem_flatten, List.mem_map] at hc
  obtain ⟨v, ⟨i, hi, hv⟩, hcv⟩ := hc
  exact ⟨i, List.mem_range.mp hi, hv ▸ hcv⟩

theorem column_indicesDe_lt {l : List (Nat × Nat)} {c : Nat}
    (hc : c ∈ column_indicesDe l (numNodosDe l)) : c < numNodosDe l := by
  obtain ⟨i, _, hv⟩ := mem_column_indicesDe hc
  exact (mem_lt_numNodosDe (mem_vecinosDe.mp hv)).2

/-! ### Extracting a node's slice from the flattened column indices -/

theorem range_map_getD_eq_drop_take (v : List Nat) (a k : Nat) (h : a + k ≤ v.length) :
    (List.range k).map (fun i => v.getD (a + i) 0) = (v.drop a).take k := by
  apply List.ext_getElem
  · simp; omega
  · intro i h1 h2
    simp only [List.getElem_map, List.getElem_range, List.getElem_take,
      List.getElem_drop]
    rw [List.getD_eq_getElem?_getD, List.getElem?_eq_getElem (by simp at h1; omega)]
    rfl

theorem flatten_drop_take {α : Type} (L : List (List α)) (u : Nat) (hu : u < L.length) :
    (L.flatten.drop (((L.take u).map List.length).sum)).take (L.get ⟨u, hu⟩).length
      = L.get ⟨u, hu⟩ := by
  induction L generalizing u with
  | nil => cases hu
  | cons x L ih =>
    cases u with
    | zero =>
      simp only [List.take_zero, List.map_nil, List.sum_nil, List.drop_zero,
        List.flatten_cons, List.get]
      exact List.take_left' rfl
    | succ u =>
      have hu2 : u < L.length := by simpa using hu
      simp only [List.take_succ_cons, List.map_cons, List.sum_cons,
        List.flatten_cons, List.get]
      rw [List.drop_append]
      exact ih u hu2

theorem vecinosCSR_cargarDatos (l : List (Nat × Nat)) {u : Nat}
    (hu : u < numNodosDe l) :
    vecinosCSR (cargarDatos l) u = vecinosDe l u := by
  have hrow1 : (cargarDatos l).row_ptr.getD u 0 = prefSum l u :=
    row_ptrDe_getD (Nat.le_of_lt hu)
  have hrow2 : (cargarDatos l).row_ptr.getD (u + 1) 0 = prefSum l (u + 1) :=
    row_ptrDe_getD hu
  have hlen : prefSum l (u + 1) ≤ (column_indicesDe l (numNodosDe l)).length := by
    rw [length_column_indicesDe]
    exact prefSum_mono l hu
  unfold vecinosCSR
  rw [hrow1, hrow2, prefSum_succ]
  simp only [Nat.add_sub_cancel_left]
  have hcol : (cargarDatos l).column_indices = column_indicesDe l (numNodosDe l) := rfl
  rw [hcol, range_map_getD_eq_drop_take _ _ _ (by rw [← prefSum_succ]; exact hlen)]
  have hL : u < ((List.range (numNodosDe l)).map (vecinosDe l)).length := by
    simpa using hu
  have hget : ((List.range (numNodosDe l)).map (vecinosDe l)).get ⟨u, hL⟩
      = vecinosDe l u := by
    simp
  have := flatten_drop_take ((List.range (numNodosDe l)).map (vecinosDe l)) u hL
  rw [hget] at this
  have hsum : ((((List.range (numNodosDe l)).map (vecinosDe l)).take u).map
      List.length).sum = prefSum l u := by
    rw [← List.map_take, List.take_range, Nat.min_eq_left (Nat.le_of_lt hu),
      List.map_map]
    unfold prefSum
    exact congrArg List.sum (List.map_congr_left (fun i _ => rfl))
  rw [hsum] at this
  exact this

/-! ### Out-degree on built graphs -/

theorem obtenerGradoSalida_cargarDatos (l : List (Nat × Nat)) {u : Nat}
    (hu : u < numNodosDe l) :
    obtenerGradoSalida (cargarDatos l) (u : Int) = gradoDe l u := by
  unfold obtenerGradoSalida
  rw [if_neg (by push_cast [cargarDatos]; omega)]
  have h1 : ((u : Int)).toNat = u := Int.toNat_natCast u
  rw [h1]
  have hrow1 : (cargarDatos l).row_ptr.getD u 0 = prefSum l u :=
    row_ptrDe_getD (Nat.le_of_lt hu)
  have hrow2 : (cargarDatos l).row_ptr.getD (u + 1) 0 = prefSum l (u + 1) :=
    row_ptrDe_getD hu
  rw [hrow1, hrow2, prefSum_succ]
  omega

theorem length_vecinosCSR_cargarDatos (l : List (Nat × Nat)) {u : Nat}
    (hu : u < numNodosDe l) :
    (vecinosCSR (cargarDatos l) u).length = gradoDe l u := by
  rw [vecinosCSR_cargarDatos l hu]; rfl

theorem mem_vecinosCSR_lt (l : List (Nat × Nat)) {u w : Nat}
    (hu : u < numNodosDe l) (hw : w ∈ vecinosCSR (cargarDatos l) u) :
    w < numNodosDe l := by
  rw [vecinosCSR_cargarDatos l hu] at hw
  exact (mem_lt_numNodosDe (mem_vecinosDe.mp hw)).2

theorem numNodos_cargarDatos (l : List (Nat × Nat)) :
    (cargarDatos l).numNodos = numNodosDe l := rfl

theorem numAristas_cargarDatos (l : List (Nat × Nat)) :
    (cargarDatos l).numAristas = l.length := rfl

/-! ### Degree sum over all nodes -/

theorem sum_gradoSalida (l : List (Nat × Nat)) :
    ((List.range (cargarDatos l).numNodos).map
      (fun (i : Nat) => obtenerGradoSalida (cargarDatos l) (i : Int))).sum
      = (cargarDatos l).numAristas := by
  rw [numNodos_cargarDatos, numAristas_cargarDatos]
  have h1 : ∀ i ∈ List.range (numNodosDe l),
      obtenerGradoSalida (cargarDatos l) (i : Int) = gradoDe l i := fun i hi =>
    obtenerGradoSalida_cargarDatos l (List.mem_range.mp hi)
  rw [List.map_congr_left h1]
  exact prefSum_eq_length (fun p hp => (mem_lt_numNodosDe hp).1)

/-! ### Scan for the node of maximum out-degree -/

theorem foldl_mayor (f : Nat → Nat) (n : Nat) :
    ((List.range n).foldl
        (fun acc i => if acc.2 < f i then ((i : Int), f i) else acc) (-1, 0)
        = (-1, 0) ∧ ∀ i < n, f i = 0)
    ∨ (∃ j, j < n ∧ 0 < f j ∧
        (List.range n).foldl
          (fun acc i => if acc.2 < f i then ((i : Int), f i) else acc) (-1, 0)
          = ((j : Int), f j) ∧
        (∀ i < n, f i ≤ f j) ∧ (∀ i < j, f i < f j)) := by
  induction n with
  | zero => exact Or.inl ⟨rfl, fun i hi => absurd hi (Nat.not_lt_zero i)⟩
  | succ n ih =>
    rw [List.range_succ, List.foldl_append, List.foldl_cons, List.foldl_nil]
    rcases ih with ⟨heq, hall⟩ | ⟨j, hjn, hjpos, heq, hmax, hleast⟩
    · rw [heq]
      by_cases hf : 0 < f n
      · rw [if_pos (by simpa using hf)]
        refine Or.inr ⟨n, Nat.lt_succ_self n, hf, rfl, ?_, ?_⟩
        · intro i hi
          rcases Nat.lt_succ_iff_lt_or_eq.mp hi with h | h
          · rw [hall i h]; exact Nat.zero_le _
          · subst h; exact le_refl _
        · intro i hi; rw [hall i hi]; exact hf
      · rw [if_neg (by simpa using hf)]
        refine Or.inl ⟨rfl, fun i hi => ?_⟩
        rcases Nat.lt_succ_iff_lt_or_eq.mp hi with h | h
        · exact hall i h
        · subst h; omega
    · rw [heq]
      by_cases hf : f j < f n
      · rw [if_pos hf]
        refine Or.inr ⟨n, Nat.lt_succ_self n, Nat.lt_of_le_of_lt (Nat.zero_le _) hf,
          rfl, ?_, ?_⟩
        · intro i hi
          rcases Nat.lt_succ_iff_lt_or_eq.mp hi with h | h
          · exact le_of_lt (Nat.lt_of_le_of_lt (hmax i h) hf)
          · subst h; exact le_refl _
        · intro i hi; exact Nat.lt_of_le_of_lt (hmax i hi) hf
      · rw [if_neg hf]
        refine Or.inr ⟨j, Nat.lt_succ_of_lt hjn, hjpos, rfl, ?_, hleast⟩
        intro i hi
        rcases Nat.lt_succ_iff_lt_or_eq.mp hi with h | h
        · exact hmax i h
        · subst h; omega

theorem exists_pos_of_sum_pos (f : Nat → Nat) (n : Nat)
    (h : 0 < ((List.range n).map f).sum) : ∃ i, i < n ∧ 0 < f i := by
  by_contra hc
  push_neg at hc
  have hz : ∀ i ∈ List.range n, f i = (fun _ => 0) i := fun i hi =>
    Nat.le_zero.mp (hc i (List.mem_range.mp hi))
  rw [List.map_congr_left hz] at h
  simp at h

end Grafo

namespace Grafo

/-! ## Claim theorems -/

/-- Claim C1: for every graph built by `cargarDatos` from a well-formed
edge list of non-negative integer pairs, the CSR build invariants hold:
`row_ptr[0] = 0`, `row_ptr[numNodos] = numAristas`, `row_ptr` is
non-decreasing, every entry of `column_indices` lies in
`[0, numNodos)`, every entry of `values` equals 1, and the
out-degrees over all nodes sum to `numAristas`. -/
theorem claim_C1_invariantes_csr (l : List (Nat × Nat)) :
    (cargarDatos l).row_ptr.getD 0 0 = 0 ∧
    (cargarDatos l).row_ptr.getD (cargarDatos l).numNodos 0
      = (cargarDatos l).numAristas ∧
    List.Pairwise (· ≤ ·) (cargarDatos l).row_ptr ∧
    (∀ c ∈ (cargarDatos l).column_indices, c < (cargarDatos l).numNodos) ∧
    (∀ v ∈ (cargarDatos l).values, v = 1) ∧
    ((List.range (cargarDatos l).numNodos).map
      (fun (i : Nat) => obtenerGradoSalida (cargarDatos l) (i : Int))).sum
      = (cargarDatos l).numAristas := by
  refine ⟨row_ptrDe_getD (Nat.zero_le _), ?_, ?_, ?_, ?_, sum_gradoSalida l⟩
  · rw [numNodos_cargarDatos, numAristas_cargarDatos]
    rw [show (cargarDatos l).row_ptr = row_ptrDe l (numNodosDe l) from rfl,
      row_ptrDe_getD (le_refl _)]
    exact prefSum_eq_length (fun p hp => (mem_lt_numNodosDe hp).1)
  · rw [show (cargarDatos l).row_ptr = row_ptrDe l (numNodosDe l) from rfl,
      row_ptrDe, List.pairwise_map]
    exact (List.pairwise_lt_range _).imp (fun h => prefSum_mono l (Nat.le_of_lt h))
  · intro c hc
    exact column_indicesDe_lt hc
  · intro v hv
    exact (List.eq_of_mem_replicate hv)

/-- Claim C6: on a built graph, `getVecinos` of an in-range node is
exactly the slice `column_indices[row_ptr[node] .. row_ptr[node+1])`
in order, and its length equals `obtenerGradoSalida` of the node; for
an out-of-range node it is the empty sequence. -/
theorem claim_C6_getVecinos (l : List (Nat × Nat)) (nodo : Int) :
    (0 ≤ nodo → nodo < ((cargarDatos l).numNodos : Int) →
      getVecinos (cargarDatos l) nodo
        = ((cargarDatos l).column_indices.drop
            ((cargarDatos l).row_ptr.getD nodo.toNat 0)).take
            ((cargarDatos l).row_ptr.getD (nodo.toNat + 1) 0
              - (cargarDatos l).row_ptr.getD nodo.toNat 0) ∧
      (getVecinos (cargarDatos l) nodo).length
        = obtenerGradoSalida (cargarDatos l) nodo) ∧
    (nodo < 0 ∨ ((cargarDatos l).numNodos : Int) ≤ nodo →
      getVecinos (cargarDatos l) nodo = []) := by
  constructor
  · intro h0 hlt
    have hnotout : ¬(nodo < 0 ∨ ((cargarDatos l).numNodos : Int) ≤ nodo) := by omega
    have hu : nodo.toNat < numNodosDe l := by
      rw [numNodos_cargarDatos] at hlt; omega
    have hveq : getVecinos (cargarDatos l) nodo = vecinosCSR (cargarDatos l) nodo.toNat := by
      rw [getVecinos, if_neg hnotout]
    have hrow1 : (cargarDatos l).row_ptr.getD nodo.toNat 0 = prefSum l nodo.toNat :=
      row_ptrDe_getD (Nat.le_of_lt hu)
    have hrow2 : (cargarDatos l).row_ptr.getD (nodo.toNat + 1) 0
        = prefSum l (nodo.toNat + 1) := row_ptrDe_getD hu
    have hmapeq : vecinosCSR (cargarDatos l) nodo.toNat
        = (List.range ((cargarDatos l).row_ptr.getD (nodo.toNat + 1) 0
            - (cargarDatos l).row_ptr.getD nodo.toNat 0)).map
          (fun i => (cargarDatos l).column_indices.getD
            ((cargarDatos l).row_ptr.getD nodo.toNat 0 + i) 0) := rfl
    constructor
    · rw [hveq, hmapeq, hrow1, hrow2]
      apply range_map_getD_eq_drop_take
      rw [show (cargarDatos l).column_indices = column_indicesDe l (numNodosDe l)
        from rfl, length_column_indicesDe]
      have hm1 : prefSum l nodo.toNat ≤ prefSum l (nodo.toNat + 1) :=
        prefSum_mono l (Nat.le_succ _)
      have hm2 : prefSum l (nodo.toNat + 1) ≤ prefSum l (numNodosDe l) :=
        prefSum_mono l hu
      omega
    · rw [hveq, length_vecinosCSR_cargarDatos l hu]
      rw [show nodo = ((nodo.toNat : Nat) : Int) by omega]
      rw [obtenerGradoSalida_cargarDatos l hu, Int.toNat_natCast]
  · intro h
    rw [getVecinos, if_pos h]

/-- Witness for C6 at the spec scenario graph, node 1. -/
theorem claim_C6_getVecinos_witness :
    ((0 : Int) ≤ 1 → (1 : Int) < ((cargarDatos ejemplo).numNodos : Int) →
      getVecinos (cargarDatos ejemplo) 1
        = ((cargarDatos ejemplo).column_indices.drop
            ((cargarDatos ejemplo).row_ptr.getD (1 : Int).toNat 0)).take
            ((cargarDatos ejemplo).row_ptr.getD ((1 : Int).toNat + 1) 0
              - (cargarDatos ejemplo).row_ptr.getD (1 : Int).toNat 0) ∧
      (getVecinos (cargarDatos ejemplo) 1).length
        = obtenerGradoSalida (cargarDatos ejemplo) 1) ∧
    ((1 : Int) < 0 ∨ ((cargarDatos ejemplo).numNodos : Int) ≤ 1 →
      getVecinos (cargarDatos ejemplo) 1 = []) :=
  claim_C6_getVecinos ejemplo 1

/-- Claim C7: every query on a node id outside `[0, numNodos)`,
negative ids included, degrades to the neutral result: out-degree and
in-degree 0, empty neighbour list, empty BFS result (for any depth
bound) and empty DFS result. -/
theorem claim_C7_fuera_de_rango (l : List (Nat × Nat)) (nodo : Int)
    (h : nodo < 0 ∨ ((cargarDatos l).numNodos : Int) ≤ nodo)
    (profundidadMax : Int) :
    obtenerGradoSalida (cargarDatos l) nodo = 0 ∧
    obtenerGradoEntrada (cargarDatos l) nodo = 0 ∧
    getVecinos (cargarDatos l) nodo = [] ∧
    BFS (cargarDatos l) nodo profundidadMax = [] ∧
    DFS (cargarDatos l) nodo = [] := by
  refine ⟨?_, ?_, ?_, ?_, ?_⟩
  · rw [obtenerGradoSalida, if_pos h]
  · rw [obtenerGradoEntrada, if_pos h]
  · rw [getVecinos, if_pos h]
  · rw [BFS, if_pos h]
  · rw [DFS, if_pos h]

/-- Witness for C7 at the spec scenario graph with the out-of-range
start 99 of the invalid-start scenario. -/
theorem claim_C7_fuera_de_rango_witness :
    (99 < 0 ∨ ((cargarDatos ejemplo).numNodos : Int) ≤ 99) ∧
    (obtenerGradoSalida (cargarDatos ejemplo) 99 = 0 ∧
      obtenerGradoEntrada (cargarDatos ejemplo) 99 = 0 ∧
      getVecinos (cargarDatos ejemplo) 99 = [] ∧
      BFS (cargarDatos ejemplo) 99 (-1) = [] ∧
      DFS (cargarDatos ejemplo) 99 = []) :=
  ⟨by decide, claim_C7_fuera_de_rango ejemplo 99 (by decide) (-1)⟩

/-- Claim C8: the load fails exactly when the file cannot be opened
(`none`); every opened file, modelled by the pairs its parse yields,
loads successfully, and a file yielding zero pairs produces a graph
with `numNodos = 0` and `numAristas = 0`. -/
theorem claim_C8_carga (archivo : Option (List (Nat × Nat))) :
    (cargarDatosArchivo archivo).isSome = archivo.isSome ∧
    cargarDatosArchivo archivo = archivo.map cargarDatos ∧
    (cargarDatos []).numNodos = 0 ∧ (cargarDatos []).numAristas = 0 := by
  refine ⟨?_, ?_, rfl, rfl⟩ <;> cases archivo <;> rfl

/-- Claim C9: the concrete spec scenario, edge list
`[(0,1),(0,2),(1,2),(2,0)]`: 3 nodes, 4 edges, the stated out- and
in-degrees, `BFS(0,-1) = [0,1,2]`, `DFS(0) = [0,1,2]`, and maximum
degree node 0 with degree 2. -/
theorem claim_C9_escenario :
    (cargarDatos ejemplo).numNodos = 3 ∧
    (cargarDatos ejemplo).numAristas = 4 ∧
    obtenerGradoSalida (cargarDatos ejemplo) 0 = 2 ∧
    obtenerGradoSalida (cargarDatos ejemplo) 1 = 1 ∧
    obtenerGradoSalida (cargarDatos ejemplo) 2 = 1 ∧
    obtenerGradoEntrada (cargarDatos ejemplo) 0 = 1 ∧
    obtenerGradoEntrada (cargarDatos ejemplo) 1 = 1 ∧
    obtenerGradoEntrada (cargarDatos ejemplo) 2 = 2 ∧
    BFS (cargarDatos ejemplo) 0 (-1) = [0, 1, 2] ∧
    DFS (cargarDatos ejemplo) 0 = [0, 1, 2] ∧
    obtenerNodoMayorGrado (cargarDatos ejemplo) = (0, 2) := by
  decide

/-- Claim C3: on a built graph with at least one node,
`obtenerNodoMayorGrado` returns the smallest node id achieving the
maximum out-degree, together with that maximum out-degree. -/
theorem claim_C3_nodo_mayor_grado (l : List (Nat × Nat))
    (h : 0 < (cargarDatos l).numNodos) :
    0 ≤ (obtenerNodoMayorGrado (cargarDatos l)).1 ∧
    (obtenerNodoMayorGrado (cargarDatos l)).1.toNat < (cargarDatos l).numNodos ∧
    obtenerGradoSalida (cargarDatos l) (obtenerNodoMayorGrado (cargarDatos l)).1
      = (obtenerNodoMayorGrado (cargarDatos l)).2 ∧
    (∀ i : Nat, i < (cargarDatos l).numNodos →
      obtenerGradoSalida (cargarDatos l) (i : Int)
        ≤ (obtenerNodoMayorGrado (cargarDatos l)).2) ∧
    (∀ i : Nat, i < (obtenerNodoMayorGrado (cargarDatos l)).1.toNat →
      obtenerGradoSalida (cargarDatos l) (i : Int)
        < (obtenerNodoMayorGrado (cargarDatos l)).2) := by
  have hl : l ≠ [] := by
    intro hnil
    rw [hnil] at h
    exact absurd h (by decide)
  have hsum : 0 < ((List.range (cargarDatos l).numNodos).map
      (fun (i : Nat) => obtenerGradoSalida (cargarDatos l) (i : Int))).sum := by
    rw [sum_gradoSalida l, numAristas_cargarDatos]
    exact List.length_pos.mpr hl
  obtain ⟨i0, hi0n, hi0pos⟩ :=
    exists_pos_of_sum_pos (fun (i : Nat) => obtenerGradoSalida (cargarDatos l) (i : Int))
      (cargarDatos l).numNodos hsum
  have hfold := foldl_mayor (fun (i : Nat) => obtenerGradoSalida (cargarDatos l) (i : Int))
    (cargarDatos l).numNodos
  have hdef : obtenerNodoMayorGrado (cargarDatos l)
      = (List.range (cargarDatos l).numNodos).foldl
        (fun (acc : Int × Nat) (i : Nat) =>
          if acc.2 < obtenerGradoSalida (cargarDatos l) (i : Int)
          then ((i : Int), obtenerGradoSalida (cargarDatos l) (i : Int)) else acc)
        (-1, 0) := rfl
  rcases hfold with ⟨_, hall⟩ | ⟨j, hjn, _, heq, hmax, hleast⟩
  · have := hall i0 hi0n
    omega
  · rw [hdef, heq]
    refine ⟨Int.natCast_nonneg j, by simpa using hjn, rfl, hmax, ?_⟩
    intro i hi
    exact hleast i (by simpa using hi)

/-- Witness for C3 at the spec scenario graph. -/
theorem claim_C3_nodo_mayor_grado_witness :
    0 < (cargarDatos ejemplo).numNodos ∧ 0 ≤ (obtenerNodoMayorGrado (cargarDatos ejemplo)).1 :=
  ⟨by decide, (claim_C3_nodo_mayor_grado ejemplo (by decide)).1⟩

end Grafo

namespace Grafo

/-! ## BFS correctness -/

theorem length_le_of_nodup_lt {r : List Nat} {n : Nat} (hnd : r.Nodup)
    (hlt : ∀ x ∈ r, x < n) : r.length ≤ n := by
  have h1 : r.toFinset ⊆ Finset.range n := fun x hx =>
    Finset.mem_range.mpr (hlt x (List.mem_toFinset.mp hx))
  have h2 := Finset.card_le_card h1
  rw [List.toFinset_card_of_nodup hnd, Finset.card_range] at h2
  exact h2

theorem mem_of_nodup_lt_length {r : List Nat} {n : Nat} (hnd : r.Nodup)
    (hlt : ∀ x ∈ r, x < n) (hlen : n ≤ r.length) {v : Nat} (hv : v < n) :
    v ∈ r := by
  have h1 : r.toFinset ⊆ Finset.range n := fun x hx =>
    Finset.mem_range.mpr (hlt x (List.mem_toFinset.mp hx))
  have h2 : (Finset.range n).card ≤ r.toFinset.card := by
    rw [Finset.card_range, List.toFinset_card_of_nodup hnd]
    exact hlen
  have h3 := Finset.eq_of_subset_of_card_le h1 h2
  exact List.mem_toFinset.mp (h3 ▸ Finset.mem_range.mpr hv)

theorem bfsLoop_zero (g : Grafo) (profundidadMax : Int) (m : List Nat)
    (di : Nat → Int) (q r : List Nat) :
    bfsLoop g profundidadMax 0 m di q r = r := rfl

theorem bfsLoop_nil (g : Grafo) (profundidadMax : Int) (fuel : Nat)
    (m : List Nat) (di : Nat → Int) (r : List Nat) :
    bfsLoop g profundidadMax fuel m di [] r = r := by
  cases fuel <;> rfl

theorem bfsLoop_cons (g : Grafo) (profundidadMax : Int) (fuel : Nat)
    (m : List Nat) (di : Nat → Int) (nodoActual : Nat) (resto r : List Nat) :
    bfsLoop g profundidadMax (fuel + 1) m di (nodoActual :: resto) r
      = if profundidadMax ≠ -1 ∧ profundidadMax ≤ di nodoActual then
          bfsLoop g profundidadMax fuel m di resto r
        else
          (fun acc : BFSEstado =>
            bfsLoop g profundidadMax fuel acc.1 acc.2.1 acc.2.2.1 acc.2.2.2)
          ((vecinosCSR g nodoActual).foldl (bfsVisita (di nodoActual))
            (m, di, resto, r)) := rfl

theorem bfsFold_mono (d : Int) :
    ∀ (vs : List Nat) (acc : BFSEstado) (x : Nat), x ∈ acc.2.2.2 →
      x ∈ (vs.foldl (bfsVisita d) acc).2.2.2 := by
  intro vs
  induction vs with
  | nil => intro acc x hx; exact hx
  | cons w vs ih =>
    intro acc x hx
    rw [List.foldl_cons]
    apply ih
    by_cases h : w ∈ acc.1
    · rw [bfsVisita, if_pos h]; exact hx
    · rw [bfsVisita, if_neg h]
      exact List.mem_append_left _ hx

theorem bfsVisita_inv (g : Grafo) (d : Int) (V : List Nat) (di : Nat → Int)
    (resto r : List Nat) (acc : BFSEstado) (w : Nat) (hw : w ∈ V)
    (h : BFSFoldInv g d V di resto r acc) :
    BFSFoldInv g d V di resto r (bfsVisita d acc w) ∧
      w ∈ (bfsVisita d acc w).2.2.2 := by
  by_cases hmem : w ∈ acc.1
  · rw [bfsVisita, if_pos hmem]
    exact ⟨h, (h.mem_iff w).mp hmem⟩
  · rw [bfsVisita, if_neg hmem]
    obtain ⟨t, ht1, ht2, ht3⟩ := h.news
    have hwr : w ∉ acc.2.2.2 := fun hc => hmem ((h.mem_iff w).mpr hc)
    have hwnr : w ∉ r := fun hc => hwr (ht1 ▸ List.mem_append_left _ hc)
    have hwnt : w ∉ t := fun hc => hwr (ht1 ▸ List.mem_append_right _ hc)
    refine ⟨⟨?_, ⟨t ++ [w], ?_, ?_, ?_⟩, ?_, ?_⟩, ?_⟩
    · intro x
      show x ∈ w :: acc.1 ↔ x ∈ acc.2.2.2 ++ [w]
      simp only [List.mem_cons, List.mem_append, List.mem_singleton, h.mem_iff]
      tauto
    · show acc.2.2.2 ++ [w] = r ++ (t ++ [w])
      rw [ht1, List.append_assoc]
    · show acc.2.2.1 ++ [w] = resto ++ (t ++ [w])
      rw [ht2, List.append_assoc]
    · intro y hy
      show (if y = w then d + 1 else acc.2.1 y) = d + 1 ∧ y ∈ V
      rcases List.mem_append.mp hy with hy | hy
      · have hne : y ≠ w := fun hc => hwnt (hc ▸ hy)
        rw [if_neg hne]
        exact ht3 y hy
      · rw [List.mem_singleton.mp hy, if_pos rfl]
        exact ⟨rfl, hw⟩
    · intro x hx
      show (if x = w then d + 1 else acc.2.1 x) = di x
      have hne : x ≠ w := fun hc => hwnr (hc ▸ hx)
      rw [if_neg hne]
      exact h.agree x hx
    · show (acc.2.2.2 ++ [w]).Nodup
      exact List.Nodup.append h.nodup (List.nodup_singleton w)
        (List.disjoint_singleton.mpr hwr)
    · show w ∈ acc.2.2.2 ++ [w]
      exact List.mem_append_right _ (List.mem_singleton.mpr rfl)

theorem bfsFold_inv (g : Grafo) (d : Int) (V : List Nat) (di : Nat → Int)
    (resto r : List Nat) :
    ∀ (vs : List Nat), (∀ w ∈ vs, w ∈ V) → ∀ (acc : BFSEstado),
      BFSFoldInv g d V di resto r acc →
      BFSFoldInv g d V di resto r (vs.foldl (bfsVisita d) acc) ∧
        ∀ w ∈ vs, w ∈ (vs.foldl (bfsVisita d) acc).2.2.2 := by
  intro vs
  induction vs with
  | nil => intro _ acc h; exact ⟨h, fun w hw => absurd hw (List.not_mem_nil w)⟩
  | cons w vs ih =>
    intro hsub acc h
    rw [List.foldl_cons]
    obtain ⟨hstep, hwmem⟩ := bfsVisita_inv g d V di resto r acc w
      (hsub w (List.mem_cons_self w vs)) h
    obtain ⟨hres, hall⟩ := ih (fun y hy => hsub y (List.mem_cons_of_mem w hy))
      (bfsVisita d acc w) hstep
    refine ⟨hres, fun y hy => ?_⟩
    rcases List.mem_cons.mp hy with hy | hy
    · subst hy
      exact bfsFold_mono d vs _ y hwmem
    · exact hall y hy

end Grafo

namespace Grafo

/-- A BFS invariant state with an empty queue already satisfies the
loop postcondition with its own result list and distances. -/
theorem BFSInv.post_of_nil {g : Grafo} {s : Nat} {profundidadMax : Int}
    {fuel : Nat} {m : List Nat} {di : Nat → Int} {r : List Nat}
    (hinv : BFSInv g s profundidadMax fuel m di [] r) :
    BFSPost g s profundidadMax r r di where
  sub := fun _ hx => hx
  nodup := hinv.nodup_r
  lt := hinv.lt_r
  start_mem := hinv.start_mem
  start_dist := hinv.start_dist
  nonneg := hinv.dist_nonneg
  walk := hinv.dist_walk
  le_max := hinv.dist_le
  closure := fun x hx => hinv.closure x hx (List.not_mem_nil x)

theorem bfsLoop_post (g : Grafo) (s : Nat) (profundidadMax : Int)
    (hcl : ∀ u, u < g.numNodos → ∀ w ∈ vecinosCSR g u, w < g.numNodos) :
    ∀ (fuel : Nat) (m : List Nat) (di : Nat → Int) (q r : List Nat),
      BFSInv g s profundidadMax fuel m di q r →
      ∃ df : Nat → Int, (∀ x ∈ r, df x = di x) ∧
        BFSPost g s profundidadMax r
          (bfsLoop g profundidadMax fuel m di q r) df := by
  intro fuel
  induction fuel with
  | zero =>
    intro m di q r hinv
    have hrlen : r.length ≤ g.numNodos := length_le_of_nodup_lt hinv.nodup_r hinv.lt_r
    have hq : q = [] := by
      have hf := hinv.fuel_ge
      have hq0 : q.length = 0 := by omega
      exact List.length_eq_zero.mp hq0
    subst hq
    rw [bfsLoop_zero]
    exact ⟨di, fun x _ => rfl, hinv.post_of_nil⟩
  | succ fuel ih =>
    intro m di q r hinv
    rcases q with _ | ⟨nodoActual, resto⟩
    · rw [bfsLoop_nil]
      exact ⟨di, fun x _ => rfl, hinv.post_of_nil⟩
    · have hcur : nodoActual ∈ r := hinv.sub_q nodoActual (List.mem_cons_self _ _)
      have hcurlt : nodoActual < g.numNodos := hinv.lt_r _ hcur
      have hd0 : 0 ≤ di nodoActual := hinv.dist_nonneg _ hcur
      rw [bfsLoop_cons]
      by_cases hc : profundidadMax ≠ -1 ∧ profundidadMax ≤ di nodoActual
      · rw [if_pos hc]
        apply ih
        refine ⟨hinv.mem_iff, hinv.nodup_r, hinv.lt_r, ?_, hinv.nodup_q.of_cons,
          hinv.start_mem, hinv.start_dist, hinv.dist_nonneg, hinv.dist_walk,
          hinv.dist_le, ?_, hinv.sorted_q.of_cons, ?_, ?_⟩
        · exact fun x hx => hinv.sub_q x (List.mem_cons_of_mem _ hx)
        · intro x hx hxq
          by_cases hxn : x = nodoActual
          · subst hxn
            exact Or.inl hc
          · exact hinv.closure x hx (fun hmem =>
              (List.mem_cons.mp hmem).elim hxn hxq)
        · intro x hx y hy
          have hy2 : y ∈ resto := List.mem_of_mem_head? (hy ▸ rfl)
          have h1 : di x ≤ di nodoActual + 1 := hinv.bdd x hx nodoActual rfl
          have h2 : di nodoActual ≤ di y :=
            (List.pairwise_cons.mp hinv.sorted_q).1 y hy2
          omega
        · have hf := hinv.fuel_ge
          simp only [List.length_cons] at hf
          omega
      · rw [if_neg hc]
        push_neg at hc
        obtain ⟨hfinv, hallv⟩ := bfsFold_inv g (di nodoActual)
          (vecinosCSR g nodoActual) di resto r (vecinosCSR g nodoActual)
          (fun _ hw => hw) (m, di, resto, r)
          ⟨hinv.mem_iff, ⟨[], by simp, by simp, by simp⟩, fun _ _ => rfl,
            hinv.nodup_r⟩
        set X := (vecinosCSR g nodoActual).foldl (bfsVisita (di nodoActual))
          (m, di, resto, r) with hX
        obtain ⟨t, ht1, ht2, ht3⟩ := hfinv.news
        have hnd : (r ++ t).Nodup := ht1 ▸ hfinv.nodup
        have hdisj : r.Disjoint t := List.disjoint_of_nodup_append hnd
        have htlt : ∀ w ∈ t, w < g.numNodos := fun w hw =>
          hcl nodoActual hcurlt w (ht3 w hw).2
        have hbdd1 : ∀ x ∈ r, di x ≤ di nodoActual + 1 := fun x hx =>
          hinv.bdd x hx nodoActual rfl
        have hagree := hfinv.agree
        have hinv2 : BFSInv g s profundidadMax fuel X.1 X.2.1 X.2.2.1 X.2.2.2 := by
          refine ⟨hfinv.mem_iff, hfinv.nodup, ?_, ?_, ?_, ?_, ?_, ?_, ?_, ?_,
            ?_, ?_, ?_, ?_⟩
          · intro x hx
            rw [ht1] at hx
            rcases List.mem_append.mp hx with hx | hx
            · exact hinv.lt_r x hx
            · exact htlt x hx
          · intro x hx
            rw [ht2] at hx
            rw [ht1]
            rcases List.mem_append.mp hx with hx | hx
            · exact List.mem_append_left _ (hinv.sub_q x (List.mem_cons_of_mem _ hx))
            · exact List.mem_append_right _ hx
          · rw [ht2]
            refine List.Nodup.append hinv.nodup_q.of_cons
              ((List.nodup_append.mp hnd).2.1) ?_
            intro a ha hat
            exact hdisj (hinv.sub_q a (List.mem_cons_of_mem _ ha)) hat
          · rw [ht1]
            exact List.mem_append_left _ hinv.start_mem
          · rw [hagree s hinv.start_mem]
            exact hinv.start_dist
          · intro x hx
            rw [ht1] at hx
            rcases List.mem_append.mp hx with hx | hx
            · rw [hagree x hx]; exact hinv.dist_nonneg x hx
            · rw [(ht3 x hx).1]; omega
          · intro x hx
            rw [ht1] at hx
            rcases List.mem_append.mp hx with hx | hx
            · rw [hagree x hx]; exact hinv.dist_walk x hx
            · rw [(ht3 x hx).1]
              have hstep : (di nodoActual + 1).toNat = (di nodoActual).toNat + 1 := by
                omega
              rw [hstep]
              exact WalkN.tail (hinv.dist_walk nodoActual hcur) (ht3 x hx).2
          · intro hp x hx
            rw [ht1] at hx
            have hmx : profundidadMax ≤ max profundidadMax 0 := le_max_left _ _
            rcases List.mem_append.mp hx with hx | hx
            · rw [hagree x hx]; exact hinv.dist_le hp x hx
            · rw [(ht3 x hx).1]
              have := hc hp
              omega
          · intro x hx hxq
            rw [ht1] at hx
            rw [ht2] at hxq
            rcases List.mem_append.mp hx with hx | hx
            · by_cases hxn : x = nodoActual
              · rw [hxn]
                refine Or.inr (fun w hw => ?_)
                have hw2 := hallv w hw
                rw [ht1] at hw2
                refine ⟨by rw [ht1]; exact hw2, ?_⟩
                rw [hagree nodoActual hcur]
                rcases List.mem_append.mp hw2 with hw3 | hw3
                · rw [hagree w hw3]
                  have := hbdd1 w hw3
                  omega
                · rw [(ht3 w hw3).1]
              · have hxr : x ∉ resto := fun hmem =>
                  hxq (List.mem_append_left _ hmem)
                rcases hinv.closure x hx (fun hmem =>
                    (List.mem_cons.mp hmem).elim hxn hxr) with hcl2 | hcl2
                · rw [hagree x hx]
                  exact Or.inl hcl2
                · refine Or.inr (fun w hw => ?_)
                  obtain ⟨hw1, hw2⟩ := hcl2 w hw
                  rw [ht1, hagree w hw1, hagree x hx]
                  exact ⟨List.mem_append_left _ hw1, hw2⟩
            · exact absurd (List.mem_append_right resto hx) hxq
          · rw [ht2]
            rw [List.pairwise_append]
            refine ⟨?_, ?_, ?_⟩
            · refine hinv.sorted_q.of_cons.imp_of_mem ?_
              intro a b ha hb hab
              have har : a ∈ r := hinv.sub_q a (List.mem_cons_of_mem _ ha)
              have hbr : b ∈ r := hinv.sub_q b (List.mem_cons_of_mem _ hb)
              rw [hagree a har, hagree b hbr]
              exact hab
            · refine List.pairwise_of_forall_mem_list ?_
              intro a ha b hb
              rw [(ht3 a ha).1, (ht3 b hb).1]
            · intro a ha b hb
              have har : a ∈ r := hinv.sub_q a (List.mem_cons_of_mem _ ha)
              rw [hagree a har, (ht3 b hb).1]
              exact hbdd1 a har
          · intro x hx y hy
            rw [ht1] at hx
            rw [ht2] at hy
            have hymem : y ∈ resto ++ t :=
              List.mem_of_mem_head? (by rw [Option.mem_def]; exact hy)
            have hylb : di nodoActual ≤ X.2.1 y := by
              rcases List.mem_append.mp hymem with hy2 | hy2
              · have hyr : y ∈ r := hinv.sub_q y (List.mem_cons_of_mem _ hy2)
                rw [hagree y hyr]
                exact (List.pairwise_cons.mp hinv.sorted_q).1 y hy2
              · rw [(ht3 y hy2).1]
                omega
            rcases List.mem_append.mp hx with hx2 | hx2
            · rw [hagree x hx2]
              have := hbdd1 x hx2
              omega
            · rw [(ht3 x hx2).1]
              omega
          · rw [ht1, ht2]
            simp only [List.length_append]
            have hf := hinv.fuel_ge
            simp only [List.length_cons] at hf
            omega
        obtain ⟨df, hag, hpost⟩ := ih _ _ _ _ hinv2
        refine ⟨df, ?_, ?_⟩
        · intro x hx
          have hx2 : x ∈ X.2.2.2 := by
            rw [ht1]; exact List.mem_append_left _ hx
          rw [hag x hx2, hagree x hx]
        · refine { hpost with sub := ?_ }
          intro x hx
          refine hpost.sub x ?_
          rw [ht1]
          exact List.mem_append_left _ hx

end Grafo

namespace Grafo

/-- Unfoldings of `BFS` for an in-range start node and the resulting
postcondition, with fuel `numNodos` as in the source arrays. -/
theorem BFS_post (g : Grafo) (s : Nat) (profundidadMax : Int)
    (hs : s < g.numNodos)
    (hcl : ∀ u, u < g.numNodos → ∀ w ∈ vecinosCSR g u, w < g.numNodos) :
    ∃ df : Nat → Int, df s = 0 ∧
      BFSPost g s profundidadMax [s] (BFS g (s : Int) profundidadMax) df := by
  have hbfs : BFS g (s : Int) profundidadMax
      = bfsLoop g profundidadMax g.numNodos [s]
        (fun j => if j = s then 0 else -1) [s] [s] := by
    rw [BFS, if_neg (by omega)]
    simp only [Int.toNat_natCast]
  have hinv : BFSInv g s profundidadMax g.numNodos [s]
      (fun j => if j = s then 0 else -1) [s] [s] := by
    refine ⟨fun x => Iff.rfl, List.nodup_singleton s, ?_, fun x hx => hx,
      List.nodup_singleton s, List.mem_singleton.mpr rfl, if_pos rfl,
      ?_, ?_, ?_, ?_, ?_, ?_, ?_⟩
    · intro x hx
      rw [List.mem_singleton.mp hx]
      exact hs
    · intro x hx
      rw [List.mem_singleton.mp hx]
      simp
    · intro x hx
      rw [List.mem_singleton.mp hx]
      simp only [if_pos rfl]
      exact WalkN.refl
    · intro _ x hx
      rw [List.mem_singleton.mp hx]
      simp only [if_pos rfl]
      exact le_max_right _ _
    · intro x hx hxq
      exact absurd hx hxq
    · exact List.pairwise_singleton _ s
    · intro x hx y hy
      rw [List.mem_singleton.mp hx]
      have hys : y = s := by
        simp only [List.head?_cons, Option.some_inj] at hy
        exact hy.symm
      rw [hys]
      omega
    · simp only [List.length_singleton]
      omega
  obtain ⟨df, hag, hpost⟩ := bfsLoop_post g s profundidadMax hcl g.numNodos _ _ _ _ hinv
  refine ⟨df, ?_, hbfs ▸ hpost⟩
  rw [hag s (List.mem_singleton.mpr rfl)]
  simp

/-- Generic conversion from a length-indexed walk to reflexive
transitive closure. -/
theorem walkN_to_rtg {R : Nat → Nat → Prop} {a b : Nat} {k : Nat}
    (h : WalkN R a b k) : Relation.ReflTransGen R a b := by
  induction h with
  | refl => exact Relation.ReflTransGen.refl
  | tail _ h2 ih => exact ih.tail h2

/-- On built graphs, the adjacency read through CSR agrees with the
raw edge list for in-range sources. -/
theorem adyCSR_cargarDatos {l : List (Nat × Nat)} {u w : Nat}
    (hu : u < numNodosDe l) :
    AdyCSR (cargarDatos l) u w ↔ (u, w) ∈ l := by
  rw [AdyCSR, vecinosCSR_cargarDatos l hu, mem_vecinosDe]

theorem walkN_csr_to_edge {l : List (Nat × Nat)} {a b : Nat} {k : Nat}
    (h : WalkN (AdyCSR (cargarDatos l)) a b k) (ha : a < numNodosDe l) :
    WalkN (EdgeRel l) a b k ∧ b < numNodosDe l := by
  induction h with
  | refl => exact ⟨WalkN.refl, ha⟩
  | tail h1 h2 ih =>
    obtain ⟨hw, hv⟩ := ih
    have hedge := (adyCSR_cargarDatos hv).mp h2
    exact ⟨WalkN.tail hw hedge, (mem_lt_numNodosDe hedge).2⟩

theorem walkN_edge_to_csr {l : List (Nat × Nat)} {a b : Nat} {k : Nat}
    (h : WalkN (EdgeRel l) a b k) :
    WalkN (AdyCSR (cargarDatos l)) a b k := by
  induction h with
  | refl => exact WalkN.refl
  | tail h1 h2 ih =>
    exact WalkN.tail ih ((adyCSR_cargarDatos (mem_lt_numNodosDe h2).1).mpr h2)

theorem rtg_csr_to_reachable {l : List (Nat × Nat)} {a b : Nat}
    (h : Relation.ReflTransGen (AdyCSR (cargarDatos l)) a b)
    (ha : a < numNodosDe l) :
    Reachable l a b ∧ b < numNodosDe l := by
  induction h with
  | refl => exact ⟨Relation.ReflTransGen.refl, ha⟩
  | tail h1 h2 ih =>
    obtain ⟨hr, hv⟩ := ih
    have hedge := (adyCSR_cargarDatos hv).mp h2
    exact ⟨hr.tail hedge, (mem_lt_numNodosDe hedge).2⟩

theorem reachable_to_rtg_csr {l : List (Nat × Nat)} {a b : Nat}
    (h : Reachable l a b) :
    Relation.ReflTransGen (AdyCSR (cargarDatos l)) a b := by
  induction h with
  | refl => exact Relation.ReflTransGen.refl
  | tail h1 h2 ih =>
    exact ih.tail ((adyCSR_cargarDatos (mem_lt_numNodosDe h2).1).mpr h2)

/-- With a depth bound that is non-positive and different from `-1`,
the first dequeued node is cut off immediately and BFS returns just
the start node. -/
theorem BFS_nonpos (g : Grafo) (s : Nat) (hs : s < g.numNodos)
    (profundidadMax : Int) (h1 : profundidadMax ≠ -1)
    (h2 : profundidadMax ≤ 0) :
    BFS g (s : Int) profundidadMax = [s] := by
  rw [BFS, if_neg (by omega)]
  simp only [Int.toNat_natCast]
  obtain ⟨k, hk⟩ : ∃ k, g.numNodos = k + 1 := ⟨g.numNodos - 1, by omega⟩
  rw [hk, bfsLoop_cons, if_pos ⟨h1, by simpa using h2⟩, bfsLoop_nil]

end Grafo

namespace Grafo

/-- Unbounded BFS on a built graph returns exactly the reachable set,
without duplicates. -/
theorem bfs_unbounded_spec (l : List (Nat × Nat)) (s : Nat)
    (hs : s < (cargarDatos l).numNodos) :
    (∀ v, v ∈ BFS (cargarDatos l) (s : Int) (-1) ↔ Reachable l s v) ∧
    (BFS (cargarDatos l) (s : Int) (-1)).Nodup ∧
    BFS (cargarDatos l) (s : Int) 0 = [s] := by
  have hs2 : s < numNodosDe l := hs
  have hcl : ∀ u, u < (cargarDatos l).numNodos →
      ∀ w ∈ vecinosCSR (cargarDatos l) u, w < (cargarDatos l).numNodos :=
    fun u hu w hw => mem_vecinosCSR_lt l hu hw
  obtain ⟨df, hdfs, hpost⟩ := BFS_post (cargarDatos l) s (-1) hs hcl
  refine ⟨fun v => ⟨?_, ?_⟩, hpost.nodup,
    BFS_nonpos (cargarDatos l) s hs 0 (by omega) (le_refl 0)⟩
  · intro hv
    exact (rtg_csr_to_reachable (walkN_to_rtg (hpost.walk v hv)) hs2).1
  · intro hr
    induction hr with
    | refl => exact hpost.start_mem
    | tail h1 h2 ih =>
      rcases hpost.closure _ ih with hcut | hnb
      · exact absurd rfl hcut.1
      · have hblt : _ < (cargarDatos l).numNodos := hpost.lt _ ih
        have hmem : _ ∈ vecinosCSR (cargarDatos l) _ :=
          (adyCSR_cargarDatos hblt).mpr h2
        exact (hnb _ hmem).1

/-- Claim C2: on a built graph, `BFS(start, -1)` from an in-range
start returns exactly the set of nodes reachable from the start along
directed edges, each exactly once, and `BFS(start, 0)` returns exactly
`[start]`. -/
theorem claim_C2_bfs_alcanzables (l : List (Nat × Nat)) (s : Nat)
    (hs : s < (cargarDatos l).numNodos) :
    (∀ v, v ∈ BFS (cargarDatos l) (s : Int) (-1) ↔ Reachable l s v) ∧
    (BFS (cargarDatos l) (s : Int) (-1)).Nodup ∧
    BFS (cargarDatos l) (s : Int) 0 = [s] :=
  bfs_unbounded_spec l s hs

/-- Witness for C2 at the spec scenario graph from start 0. -/
theorem claim_C2_bfs_alcanzables_witness :
    0 < (cargarDatos ejemplo).numNodos ∧
    ((∀ v, v ∈ BFS (cargarDatos ejemplo) ((0 : Nat) : Int) (-1) ↔
        Reachable ejemplo 0 v) ∧
      (BFS (cargarDatos ejemplo) ((0 : Nat) : Int) (-1)).Nodup ∧
      BFS (cargarDatos ejemplo) ((0 : Nat) : Int) 0 = [0]) :=
  ⟨by decide, claim_C2_bfs_alcanzables ejemplo 0 (by decide)⟩

/-- Claim C4: on a built graph, for any depth bound `d ≥ 0`,
`BFS(start, d)` contains exactly the nodes whose BFS distance from the
start is at most `d` (that is, the nodes reached by some walk of at
most `d` edges), each exactly once. -/
theorem claim_C4_bfs_profundidad (l : List (Nat × Nat)) (s : Nat)
    (hs : s < (cargarDatos l).numNodos) (d : Int) (hd : 0 ≤ d) :
    (∀ v, v ∈ BFS (cargarDatos l) (s : Int) d ↔
      ∃ k : Nat, WalkN (EdgeRel l) s v k ∧ (k : Int) ≤ d) ∧
    (BFS (cargarDatos l) (s : Int) d).Nodup := by
  have hs2 : s < numNodosDe l := hs
  have hcl : ∀ u, u < (cargarDatos l).numNodos →
      ∀ w ∈ vecinosCSR (cargarDatos l) u, w < (cargarDatos l).numNodos :=
    fun u hu w hw => mem_vecinosCSR_lt l hu hw
  obtain ⟨df, hdfs, hpost⟩ := BFS_post (cargarDatos l) s d hs hcl
  have hne : d ≠ -1 := by omega
  refine ⟨fun v => ⟨?_, ?_⟩, hpost.nodup⟩
  · intro hv
    refine ⟨(df v).toNat, (walkN_csr_to_edge (hpost.walk v hv) hs2).1, ?_⟩
    have h1 := hpost.nonneg v hv
    have h2 := hpost.le_max hne v hv
    have h3 : max d 0 = d := max_eq_left hd
    omega
  · rintro ⟨k, hwalk, hk⟩
    have main : ∀ (b : Nat) (kk : Nat), WalkN (EdgeRel l) s b kk →
        (kk : Int) ≤ d →
        b ∈ BFS (cargarDatos l) (s : Int) d ∧ df b ≤ (kk : Int) := by
      intro b kk hw
      induction hw with
      | refl =>
        intro _
        exact ⟨hpost.start_mem, by simp [hdfs]⟩
      | @tail v2 w2 k2 h1 h2 ih =>
        intro hle
        have hle2 : (k2 : Int) ≤ d := by push_cast at hle; omega
        obtain ⟨hvres, hvle⟩ := ih hle2
        rcases hpost.closure _ hvres with hcut | hnb
        · exfalso
          have := hcut.2
          push_cast at hle
          omega
        · have hblt : v2 < (cargarDatos l).numNodos := hpost.lt _ hvres
          have hmem : w2 ∈ vecinosCSR (cargarDatos l) v2 :=
            (adyCSR_cargarDatos hblt).mpr h2
          obtain ⟨hwm, hwd⟩ := hnb _ hmem
          refine ⟨hwm, ?_⟩
          push_cast
          omega
    exact (main v k hwalk hk).1

/-- Witness for C4 at the spec scenario graph, start 0, depth 1. -/
theorem claim_C4_bfs_profundidad_witness :
    (0 < (cargarDatos ejemplo).numNodos ∧ (0 : Int) ≤ 1) ∧
    ((∀ v, v ∈ BFS (cargarDatos ejemplo) ((0 : Nat) : Int) 1 ↔
        ∃ k : Nat, WalkN (EdgeRel ejemplo) 0 v k ∧ (k : Int) ≤ 1) ∧
      (BFS (cargarDatos ejemplo) ((0 : Nat) : Int) 1).Nodup) :=
  ⟨⟨by decide, by decide⟩,
    claim_C4_bfs_profundidad ejemplo 0 (by decide) 1 (by decide)⟩

/-- Claim C10: on a built graph, a negative depth bound other than
`-1` (for example `-2`) makes BFS return exactly `[start]`, the same
behaviour as depth bound 0: only the exact value `-1` means
unbounded. -/
theorem claim_C10_profundidad_negativa (l : List (Nat × Nat)) (s : Nat)
    (hs : s < (cargarDatos l).numNodos) (profundidadMax : Int)
    (hneg : profundidadMax < 0) (hne : profundidadMax ≠ -1) :
    BFS (cargarDatos l) (s : Int) profundidadMax = [s] ∧
    BFS (cargarDatos l) (s : Int) profundidadMax
      = BFS (cargarDatos l) (s : Int) 0 := by
  have h1 := BFS_nonpos (cargarDatos l) s hs profundidadMax hne (le_of_lt hneg)
  have h2 := BFS_nonpos (cargarDatos l) s hs 0 (by omega) (le_refl 0)
  exact ⟨h1, by rw [h1, h2]⟩

/-- Witness for C10 at the spec scenario graph, depth `-2`. -/
theorem claim_C10_profundidad_negativa_witness :
    (0 < (cargarDatos ejemplo).numNodos ∧ (-2 : Int) < 0 ∧ (-2 : Int) ≠ -1) ∧
    (BFS (cargarDatos ejemplo) ((0 : Nat) : Int) (-2) = [0] ∧
      BFS (cargarDatos ejemplo) ((0 : Nat) : Int) (-2)
        = BFS (cargarDatos ejemplo) ((0 : Nat) : Int) 0) :=
  ⟨⟨by decide, by decide, by decide⟩,
    claim_C10_profundidad_negativa ejemplo 0 (by decide) (-2) (by decide)
      (by decide)⟩

end Grafo

namespace Grafo

/-! ## DFS correctness -/

theorem DFSRecursivo_zero (g : Grafo) (v : Nat) (estado : List Nat × List Nat) :
    DFSRecursivo g 0 v estado = estado := rfl

theorem DFSRecursivo_succ (g : Grafo) (fuel : Nat) (v : Nat)
    (estado : List Nat × List Nat) :
    DFSRecursivo g (fuel + 1) v estado
      = (vecinosCSR g v).foldl
          (fun acc vecino =>
            if vecino ∈ acc.1 then acc else DFSRecursivo g fuel vecino acc)
          (v :: estado.1, estado.2 ++ [v]) := rfl

/-- The result component of a DFS call only ever grows by appending. -/
theorem DFSRecursivo_ext (g : Grafo) :
    ∀ (fuel : Nat) (v : Nat) (estado : List Nat × List Nat),
      ∃ t, (DFSRecursivo g fuel v estado).2 = estado.2 ++ t := by
  intro fuel
  induction fuel with
  | zero =>
    intro v estado
    exact ⟨[], (List.append_nil _).symm⟩
  | succ fuel ih =>
    intro v estado
    rw [DFSRecursivo_succ]
    have hfold : ∀ (vs : List Nat) (acc : List Nat × List Nat),
        ∃ t, (vs.foldl (fun acc vecino => if vecino ∈ acc.1 then acc
          else DFSRecursivo g fuel vecino acc) acc).2 = acc.2 ++ t := by
      intro vs
      induction vs with
      | nil =>
        intro acc
        exact ⟨[], (List.append_nil _).symm⟩
      | cons w vs ihv =>
        intro acc
        rw [List.foldl_cons]
        by_cases hw : w ∈ acc.1
        · rw [if_pos hw]
          exact ihv acc
        · rw [if_neg hw]
          obtain ⟨t1, ht1⟩ := ih w acc
          obtain ⟨t2, ht2⟩ := ihv (DFSRecursivo g fuel w acc)
          exact ⟨t1 ++ t2, by rw [ht2, ht1, List.append_assoc]⟩
    obtain ⟨t, ht⟩ := hfold (vecinosCSR g v) (v :: estado.1, estado.2 ++ [v])
    exact ⟨[v] ++ t, by rw [ht]; simp⟩

theorem DFSRecursivo_mono (g : Grafo) (fuel : Nat) (v : Nat)
    (estado : List Nat × List Nat) {x : Nat} (hx : x ∈ estado.2) :
    x ∈ (DFSRecursivo g fuel v estado).2 := by
  obtain ⟨t, ht⟩ := DFSRecursivo_ext g fuel v estado
  rw [ht]
  exact List.mem_append_left _ hx

theorem dfsFold_mono (g : Grafo) (fuel : Nat) :
    ∀ (vs : List Nat) (acc : List Nat × List Nat) (x : Nat), x ∈ acc.2 →
      x ∈ (vs.foldl (fun acc vecino => if vecino ∈ acc.1 then acc
        else DFSRecursivo g fuel vecino acc) acc).2 := by
  intro vs
  induction vs with
  | nil =>
    intro acc x hx
    exact hx
  | cons w vs ih =>
    intro acc x hx
    rw [List.foldl_cons]
    apply ih
    by_cases hw : w ∈ acc.1
    · rw [if_pos hw]; exact hx
    · rw [if_neg hw]
      exact DFSRecursivo_mono g fuel w acc hx

theorem DFSRecursivo_post (g : Grafo)
    (hcl : ∀ u, u < g.numNodos → ∀ w ∈ vecinosCSR g u, w < g.numNodos) :
    ∀ (fuel : Nat) (v : Nat) (estado : List Nat × List Nat),
      v < g.numNodos → v ∉ estado.1 →
      (∀ x, x ∈ estado.1 ↔ x ∈ estado.2) → estado.2.Nodup →
      (∀ x ∈ estado.2, x < g.numNodos) →
      g.numNodos ≤ fuel + estado.2.length →
      DFSPost g v estado.2 (DFSRecursivo g fuel v estado).1
        (DFSRecursivo g fuel v estado).2 := by
  intro fuel
  induction fuel with
  | zero =>
    intro v estado hv hvm hm hnd hlt hfuel
    exfalso
    exact hvm ((hm v).mpr (mem_of_nodup_lt_length hnd hlt (by omega) hv))
  | succ fuel ih =>
    intro v estado hv hvm hm hnd hlt hfuel
    rw [DFSRecursivo_succ]
    have hvr : v ∉ estado.2 := fun hc => hvm ((hm v).mpr hc)
    have hfold : ∀ (vs : List Nat), (∀ w ∈ vs, w ∈ vecinosCSR g v) →
        ∀ (acc : List Nat × List Nat), DFSFoldInv g v fuel estado.2 acc →
        DFSFoldInv g v fuel estado.2
            (vs.foldl (fun acc vecino => if vecino ∈ acc.1 then acc
              else DFSRecursivo g fuel vecino acc) acc) ∧
          ∀ w ∈ vs, w ∈ (vs.foldl (fun acc vecino => if vecino ∈ acc.1 then acc
            else DFSRecursivo g fuel vecino acc) acc).2 := by
      intro vs
      induction vs with
      | nil =>
        intro _ acc hacc
        exact ⟨hacc, fun w hw => absurd hw (List.not_mem_nil w)⟩
      | cons w vs ihv =>
        intro hsub acc hacc
        rw [List.foldl_cons]
        have hwv : w ∈ vecinosCSR g v := hsub w (List.mem_cons_self w vs)
        have hstep : DFSFoldInv g v fuel estado.2
            (if w ∈ acc.1 then acc else DFSRecursivo g fuel w acc) ∧
            w ∈ (if w ∈ acc.1 then acc else DFSRecursivo g fuel w acc).2 := by
          by_cases hw : w ∈ acc.1
          · rw [if_pos hw]
            exact ⟨hacc, (hacc.mem_iff w).mp hw⟩
          · rw [if_neg hw]
            have hpost := ih w acc (hcl v hv w hwv) hw hacc.mem_iff hacc.nodup
              hacc.lt hacc.fuel_le
            obtain ⟨t2, ht2⟩ := hpost.ext
            have hmono : ∀ y ∈ acc.2, y ∈ (DFSRecursivo g fuel w acc).2 := by
              intro y hy
              rw [ht2]
              exact List.mem_append_left _ hy
            refine ⟨⟨hpost.mem_iff, ?_, hpost.nodup, hpost.lt, ?_, ?_, ?_⟩,
              hpost.self_mem⟩
            · obtain ⟨t1, ht1⟩ := hacc.ext
              exact ⟨t1 ++ t2, by rw [ht2, ht1, List.append_assoc]⟩
            · intro x hx
              rcases hpost.reach x hx with hx2 | hx2
              · exact hacc.reach x hx2
              · exact Or.inr (Relation.ReflTransGen.head hwv hx2)
            · intro x hx hxout
              by_cases hx2 : x ∈ acc.2
              · intro w2 hw2
                exact hmono w2 (hacc.closed x hx2 hxout w2 hw2)
              · intro w2 hw2
                exact hpost.closed x hx hx2 w2 hw2
            · have h1 := hacc.fuel_le
              have h2 := hpost.len
              omega
        obtain ⟨hres, hall⟩ := ihv (fun y hy => hsub y (List.mem_cons_of_mem w hy))
          _ hstep.1
        refine ⟨hres, fun y hy => ?_⟩
        rcases List.mem_cons.mp hy with hy | hy
        · subst hy
          exact dfsFold_mono g fuel vs _ y hstep.2
        · exact hall y hy
    have hinit : DFSFoldInv g v fuel estado.2 (v :: estado.1, estado.2 ++ [v]) := by
      refine ⟨?_, ⟨[], by simp⟩, ?_, ?_, ?_, ?_, ?_⟩
      · intro x
        show x ∈ v :: estado.1 ↔ x ∈ estado.2 ++ [v]
        simp only [List.mem_cons, List.mem_append, List.mem_singleton, hm x]
        tauto
      · show (estado.2 ++ [v]).Nodup
        exact List.Nodup.append hnd (List.nodup_singleton v)
          (List.disjoint_singleton.mpr hvr)
      · intro x hx
        rcases List.mem_append.mp hx with hx | hx
        · exact hlt x hx
        · rw [List.mem_singleton.mp hx]
          exact hv
      · intro x hx
        rcases List.mem_append.mp hx with hx | hx
        · exact Or.inl hx
        · rw [List.mem_singleton.mp hx]
          exact Or.inr Relation.ReflTransGen.refl
      · intro x hx hxout
        exact absurd hx hxout
      · show g.numNodos ≤ fuel + (estado.2 ++ [v]).length
        simp only [List.length_append, List.length_singleton]
        omega
    obtain ⟨hfinal, hallv⟩ := hfold (vecinosCSR g v) (fun _ hw => hw)
      (v :: estado.1, estado.2 ++ [v]) hinit
    obtain ⟨t, ht⟩ := hfinal.ext
    refine ⟨hfinal.mem_iff, ?_, hfinal.nodup, hfinal.lt, ?_, hfinal.reach, ?_, ?_⟩
    · exact ⟨[v] ++ t, by rw [ht]; simp⟩
    · rw [ht]
      exact List.mem_append_left _ (List.mem_append_right _
        (List.mem_singleton.mpr rfl))
    · intro x hx hxr
      by_cases hxv : x = v
      · rw [hxv]
        exact fun w hw => hallv w hw
      · refine hfinal.closed x hx ?_
        intro hc
        rcases List.mem_append.mp hc with hc | hc
        · exact hxr hc
        · exact hxv (List.mem_singleton.mp hc)
    · rw [ht]
      simp only [List.length_append, List.length_singleton]
      omega

/-- `DFS` from an in-range start visits exactly the nodes reachable
through the CSR adjacency, without duplicates. -/
theorem DFS_post (g : Grafo)
    (hcl : ∀ u, u < g.numNodos → ∀ w ∈ vecinosCSR g u, w < g.numNodos)
    (s : Nat) (hs : s < g.numNodos) :
    (∀ v, v ∈ DFS g (s : Int) ↔ Relation.ReflTransGen (AdyCSR g) s v) ∧
    (DFS g (s : Int)).Nodup := by
  have hdfs : DFS g (s : Int) = (DFSRecursivo g g.numNodos s ([], [])).2 := by
    rw [DFS, if_neg (by omega)]
    simp only [Int.toNat_natCast]
  have hpost := DFSRecursivo_post g hcl g.numNodos s ([], []) hs
    (List.not_mem_nil s) (fun x => Iff.rfl) List.nodup_nil
    (fun x hx => absurd hx (List.not_mem_nil x)) (by simp)
  rw [hdfs]
  refine ⟨fun v => ⟨?_, ?_⟩, hpost.nodup⟩
  · intro hv
    rcases hpost.reach v hv with h | h
    · exact absurd h (List.not_mem_nil v)
    · exact h
  · intro hrtg
    induction hrtg with
    | refl => exact hpost.self_mem
    | tail h1 h2 ih => exact hpost.closed _ ih (List.not_mem_nil _) _ h2

/-- Claim C5: on a built graph, for any in-range start node, `DFS`
and unbounded `BFS` visit exactly the same set of nodes. -/
theorem claim_C5_dfs_bfs (l : List (Nat × Nat)) (s : Nat)
    (hs : s < (cargarDatos l).numNodos) :
    ∀ v, v ∈ DFS (cargarDatos l) (s : Int) ↔
      v ∈ BFS (cargarDatos l) (s : Int) (-1) := by
  have hs2 : s < numNodosDe l := hs
  have hcl : ∀ u, u < (cargarDatos l).numNodos →
      ∀ w ∈ vecinosCSR (cargarDatos l) u, w < (cargarDatos l).numNodos :=
    fun u hu w hw => mem_vecinosCSR_lt l hu hw
  obtain ⟨hdfs, _⟩ := DFS_post (cargarDatos l) hcl s hs
  obtain ⟨hbfs, _, _⟩ := bfs_unbounded_spec l s hs
  intro v
  rw [hdfs v, hbfs v]
  constructor
  · intro h
    exact (rtg_csr_to_reachable h hs2).1
  · intro h
    exact reachable_to_rtg_csr h

/-- Witness for C5 at the spec scenario graph from start 0. -/
theorem claim_C5_dfs_bfs_witness :
    0 < (cargarDatos ejemplo).numNodos ∧
    ∀ v, v ∈ DFS (cargarDatos ejemplo) ((0 : Nat) : Int) ↔
      v ∈ BFS (cargarDatos ejemplo) ((0 : Nat) : Int) (-1) :=
  ⟨by decide, claim_C5_dfs_bfs ejemplo 0 (by decide)⟩

end Grafo
